import Mathlib

/-!
Shallow embedding of the MAC_Tracker core (src/mac_tracker.py):
the location-tracking upsert (`upsert_mac`, lines 137-165), the
Bridge-MIB correlator (`get_mac_table`, lines 88-112), the SNMP walk
error handling (`snmp_walk`, lines 66-86) and the per-device processing
loop (`process_device`, lines 167-175).  Persistent SQL state is
modelled as explicit lists of rows in insertion order; timestamps are
naturals; code that can raise returns `Option`.
-/

namespace MacTracker

set_option maxRecDepth 10000 in
/-- A row of the `mac_addresses` table (see `ensure_tables`).  The
SERIAL `id` column is omitted: no tracker logic reads or writes it. -/
structure MacRow where
  mac : String
  device : String
  interface : String
  first_seen : Nat
  last_seen : Nat
deriving DecidableEq

/-- A row of the `mac_movements` table (see `ensure_tables`), again
without the unused SERIAL `id`. -/
structure MovementRow where
  mac : String
  from_device : String
  from_if : String
  to_device : String
  to_if : String
  moved_at : Nat
deriving DecidableEq

/-- The database state the tracker touches: both tables, each as a list
of rows in insertion order. -/
structure DBState where
  mac_addresses : List MacRow
  mac_movements : List MovementRow
deriving DecidableEq

/-- `upsert_mac(cursor, mac, device, interface, now)` of mac_tracker.py
(lines 137-165).  `SELECT ... WHERE mac = %s` plus `fetchone()` is the
first row whose mac matches; `UPDATE ... WHERE mac = %s` rewrites every
matching row; `INSERT` appends a row. -/
def upsert_mac (st : DBState) (mac device interface : String) (now : Nat) : DBState :=
  match st.mac_addresses.find? (fun r => r.mac == mac) with
  | some row =>
    if row.device = device ∧ row.interface = interface then
      { st with mac_addresses :=
          st.mac_addresses.map (fun r =>
            if r.mac == mac then { r with last_seen := now } else r) }
    else
      { mac_addresses :=
          st.mac_addresses.map (fun r =>
            if r.mac == mac then
              { r with device := device, interface := interface, last_seen := now }
            else r),
        mac_movements :=
          st.mac_movements ++ [⟨mac, row.device, row.interface, device, interface, now⟩] }
  | none =>
    { st with mac_addresses :=
        st.mac_addresses ++ [⟨mac, device, interface, now, now⟩] }

/-- The rows of `mac_addresses` whose key is `m` (the result set of
`SELECT ... WHERE mac = m`). -/
def rowsFor (m : String) (st : DBState) : List MacRow :=
  st.mac_addresses.filter (fun r => r.mac == m)

/-- The arguments of one `upsert_mac` call. -/
structure Op where
  mac : String
  device : String
  interface : String
  now : Nat
deriving DecidableEq

/-- Running a sequence of upsert calls against a state. -/
def runOps (st : DBState) (ops : List Op) : DBState :=
  ops.foldl (fun s o => upsert_mac s o.mac o.device o.interface o.now) st

/-- The empty database, right after `ensure_tables` on a fresh schema. -/
def emptyDB : DBState := ⟨[], []⟩

/-- The upsert calls of a sequence that carry a given mac. -/
def opsFor (m : String) (ops : List Op) : List Op :=
  ops.filter (fun o => o.mac == m)

/-- Per-mac abstraction of the location row: the effect of one upsert
call on the single `mac_addresses` row keyed by `m`. -/
def macStep (m : String) (acc : Option MacRow) (o : Op) : Option MacRow :=
  if o.mac == m then
    some (match acc with
      | none => ⟨m, o.device, o.interface, o.now, o.now⟩
      | some r => { r with device := o.device, interface := o.interface, last_seen := o.now })
  else acc

/-- The location row for mac `m` predicted from a call sequence alone. -/
def macState (m : String) (ops : List Op) : Option MacRow :=
  ops.foldl (macStep m) none

theorem find?_eq_head?_filter {α : Type} (p : α → Bool) (xs : List α) :
    xs.find? p = (xs.filter p).head? := by
  induction xs with
  | nil => rfl
  | cons x xs ih =>
    cases h : p x with
    | true =>
      rw [List.find?_cons_of_pos _ h, List.filter_cons_of_pos h, List.head?_cons]
    | false =>
      have h' : ¬ (p x = true) := by simp [h]
      rw [List.find?_cons_of_neg _ h', List.filter_cons_of_neg h', ih]

theorem filter_map_update_self (mac : String) (u : MacRow → MacRow)
    (hu : ∀ r, (u r).mac = r.mac) (rows : List MacRow) :
    (rows.map (fun r => if r.mac == mac then u r else r)).filter (fun r => r.mac == mac)
      = (rows.filter (fun r => r.mac == mac)).map u := by
  induction rows with
  | nil => rfl
  | cons x xs ih =>
    cases hb : x.mac == mac with
    | true =>
      have hb2 : ((u x).mac == mac) = true := by rw [hu]; exact hb
      simp only [List.map_cons, if_pos hb]
      rw [List.filter_cons_of_pos (p := fun (r : MacRow) => r.mac == mac) hb2,
        List.filter_cons_of_pos (p := fun (r : MacRow) => r.mac == mac) hb, List.map_cons, ih]
    | false =>
      have hb' : ¬ ((x.mac == mac) = true) := by simp [hb]
      simp only [List.map_cons, if_neg hb']
      rw [List.filter_cons_of_neg (p := fun (r : MacRow) => r.mac == mac) hb',
        List.filter_cons_of_neg (p := fun (r : MacRow) => r.mac == mac) hb']
      exact ih

theorem filter_map_update_other (m mac : String) (hne : m ≠ mac) (u : MacRow → MacRow)
    (hu : ∀ r, (u r).mac = r.mac) (rows : List MacRow) :
    (rows.map (fun r => if r.mac == mac then u r else r)).filter (fun r => r.mac == m)
      = rows.filter (fun r => r.mac == m) := by
  induction rows with
  | nil => rfl
  | cons x xs ih =>
    cases hb : x.mac == mac with
    | true =>
      have hxmac : x.mac = mac := by rwa [beq_iff_eq] at hb
      have hxm : ¬ ((x.mac == m) = true) := by
        rw [beq_iff_eq, hxmac]
        exact fun hc => hne hc.symm
      have hum : ¬ (((u x).mac == m) = true) := by rw [hu]; exact hxm
      simp only [List.map_cons, if_pos hb]
      rw [List.filter_cons_of_neg (p := fun (r : MacRow) => r.mac == m) hum,
        List.filter_cons_of_neg (p := fun (r : MacRow) => r.mac == m) hxm]
      exact ih
    | false =>
      have hb' : ¬ ((x.mac == mac) = true) := by simp [hb]
      simp only [List.map_cons, if_neg hb']
      rw [List.filter_cons, List.filter_cons, ih]

theorem rowsFor_upsert_other (st : DBState) (m mac dev itf : String) (now : Nat)
    (hne : m ≠ mac) :
    rowsFor m (upsert_mac st mac dev itf now) = rowsFor m st := by
  cases hfind : st.mac_addresses.find? (fun r => r.mac == mac) with
  | none =>
    simp only [rowsFor, upsert_mac, hfind, List.filter_append]
    have hm : ((⟨mac, dev, itf, now, now⟩ : MacRow).mac == m) = false := by
      rw [beq_eq_false_iff_ne]
      exact fun hc => hne hc.symm
    simp [hm]
  | some row =>
    by_cases hsame : row.device = dev ∧ row.interface = itf
    · simp only [rowsFor, upsert_mac, hfind, if_pos hsame]
      exact filter_map_update_other m mac hne
        (fun x => { x with last_seen := now }) (fun x => rfl) st.mac_addresses
    · simp only [rowsFor, upsert_mac, hfind, if_neg hsame]
      exact filter_map_update_other m mac hne
        (fun x => { x with device := dev, interface := itf, last_seen := now })
        (fun x => rfl) st.mac_addresses

theorem rowsFor_upsert_none (st : DBState) (mac dev itf : String) (now : Nat)
    (h : rowsFor mac st = []) :
    rowsFor mac (upsert_mac st mac dev itf now) = [⟨mac, dev, itf, now, now⟩] ∧
    (upsert_mac st mac dev itf now).mac_movements = st.mac_movements := by
  have hfind : st.mac_addresses.find? (fun r => r.mac == mac) = none := by
    rw [find?_eq_head?_filter]
    rw [rowsFor] at h
    rw [h]
    rfl
  constructor
  · simp only [rowsFor, upsert_mac, hfind, List.filter_append]
    rw [rowsFor] at h
    rw [h]
    simp
  · simp only [upsert_mac, hfind]

theorem rowsFor_upsert_same (st : DBState) (mac dev itf : String) (now : Nat)
    (r : MacRow) (h : rowsFor mac st = [r]) (hdev : r.device = dev) (hitf : r.interface = itf) :
    rowsFor mac (upsert_mac st mac dev itf now) = [{ r with last_seen := now }] ∧
    (upsert_mac st mac dev itf now).mac_movements = st.mac_movements := by
  have hfind : st.mac_addresses.find? (fun r => r.mac == mac) = some r := by
    rw [find?_eq_head?_filter]
    rw [rowsFor] at h
    rw [h]
    rfl
  have hcond : r.device = dev ∧ r.interface = itf := ⟨hdev, hitf⟩
  constructor
  · simp only [rowsFor, upsert_mac, hfind, if_pos hcond]
    rw [filter_map_update_self mac (fun x => { x with last_seen := now }) (fun x => rfl)]
    rw [rowsFor] at h
    rw [h]
    rfl
  · simp only [upsert_mac, hfind, if_pos hcond]

theorem rowsFor_upsert_moved (st : DBState) (mac dev itf : String) (now : Nat)
    (r : MacRow) (h : rowsFor mac st = [r]) (hdiff : ¬ (r.device = dev ∧ r.interface = itf)) :
    rowsFor mac (upsert_mac st mac dev itf now)
      = [{ r with device := dev, interface := itf, last_seen := now }] ∧
    (upsert_mac st mac dev itf now).mac_movements
      = st.mac_movements ++ [⟨mac, r.device, r.interface, dev, itf, now⟩] := by
  have hfind : st.mac_addresses.find? (fun r => r.mac == mac) = some r := by
    rw [find?_eq_head?_filter]
    rw [rowsFor] at h
    rw [h]
    rfl
  constructor
  · simp only [rowsFor, upsert_mac, hfind, if_neg hdiff]
    rw [filter_map_update_self mac
          (fun x => { x with device := dev, interface := itf, last_seen := now }) (fun x => rfl)]
    rw [rowsFor] at h
    rw [h]
    rfl
  · simp only [upsert_mac, hfind, if_neg hdiff]

theorem runOps_append (st : DBState) (l : List Op) (o : Op) :
    runOps st (l ++ [o]) = upsert_mac (runOps st l) o.mac o.device o.interface o.now := by
  simp [runOps, List.foldl_append]

theorem macState_append (m : String) (l : List Op) (o : Op) :
    macState m (l ++ [o]) = macStep m (macState m l) o := by
  simp [macState, List.foldl_append]

theorem movements_upsert (st : DBState) (mac dev itf : String) (now : Nat) :
    ∃ tl, (upsert_mac st mac dev itf now).mac_movements = st.mac_movements ++ tl := by
  cases hfind : st.mac_addresses.find? (fun r => r.mac == mac) with
  | none =>
    simp only [upsert_mac, hfind]
    exact ⟨[], by simp⟩
  | some row =>
    by_cases hsame : row.device = dev ∧ row.interface = itf
    · simp only [upsert_mac, hfind, if_pos hsame]
      exact ⟨[], by simp⟩
    · simp only [upsert_mac, hfind, if_neg hsame]
      exact ⟨[⟨mac, row.device, row.interface, dev, itf, now⟩], rfl⟩

theorem movements_runOps (st : DBState) (ops : List Op) :
    ∃ tl, (runOps st ops).mac_movements = st.mac_movements ++ tl := by
  induction ops using List.reverseRecOn with
  | nil => exact ⟨[], by simp [runOps]⟩
  | append_singleton l o ih =>
    obtain ⟨tl, htl⟩ := ih
    obtain ⟨tl2, htl2⟩ := movements_upsert (runOps st l) o.mac o.device o.interface o.now
    refine ⟨tl ++ tl2, ?_⟩
    rw [runOps_append, htl2, htl, List.append_assoc]

theorem macState_of_opsFor_nil (m : String) (ops : List Op) (h : opsFor m ops = []) :
    macState m ops = none := by
  induction ops with
  | nil => rfl
  | cons o l ih =>
    cases hb : o.mac == m with
    | true =>
      exfalso
      rw [opsFor, List.filter_cons_of_pos (p := fun (o : Op) => o.mac == m) hb] at h
      exact List.cons_ne_nil _ _ h
    | false =>
      have hb' : ¬ ((o.mac == m) = true) := by simp [hb]
      rw [opsFor, List.filter_cons_of_neg (p := fun (o : Op) => o.mac == m) hb'] at h
      have hstep : macStep m none o = none := by simp [macStep, hb']
      simp only [macState, List.foldl_cons, hstep]
      exact ih h

theorem macState_spec (m : String) (ops : List Op) (hne : opsFor m ops ≠ []) :
    ∃ o0 ok, (opsFor m ops).head? = some o0 ∧ (opsFor m ops).getLast? = some ok ∧
      macState m ops = some ⟨m, ok.device, ok.interface, o0.now, ok.now⟩ := by
  induction ops using List.reverseRecOn with
  | nil => exact absurd rfl hne
  | append_singleton l o ih =>
    cases hb : o.mac == m with
    | false =>
      have hb' : ¬ ((o.mac == m) = true) := by simp [hb]
      have heq : opsFor m (l ++ [o]) = opsFor m l := by
        simp [opsFor, List.filter_append, hb']
      rw [heq] at hne ⊢
      obtain ⟨o0, ok, h0, h1, hms⟩ := ih hne
      refine ⟨o0, ok, h0, h1, ?_⟩
      rw [macState_append]
      simp only [macStep, hb', if_neg hb']
      exact hms
    | true =>
      have heq : opsFor m (l ++ [o]) = opsFor m l ++ [o] := by
        simp [opsFor, List.filter_append, hb]
      rw [heq]
      rw [macState_append]
      cases hl : opsFor m l with
      | nil =>
        have hnone : macState m l = none := macState_of_opsFor_nil m l hl
        refine ⟨o, o, by simp, by simp [List.getLast?_concat], ?_⟩
        rw [hnone]
        have hmeq : o.mac = m := by rwa [beq_iff_eq] at hb
        simp [macStep, hb, hmeq]
      | cons a rest =>
        have hlne : opsFor m l ≠ [] := by rw [hl]; exact List.cons_ne_nil _ _
        obtain ⟨o0, ok, h0, h1, hms⟩ := ih hlne
        refine ⟨o0, o, ?_, List.getLast?_concat _, ?_⟩
        · rw [List.head?_append]
          rw [hl] at h0
          rw [h0]
          rfl
        · rw [hms]
          simp [macStep, hb]

theorem rowsFor_runOps (m : String) (ops : List Op) :
    rowsFor m (runOps emptyDB ops) = (macState m ops).toList := by
  induction ops using List.reverseRecOn with
  | nil => rfl
  | append_singleton l o ih =>
    rw [runOps_append, macState_append]
    by_cases hmac : o.mac = m
    · subst hmac
      cases hms : macState o.mac l with
      | none =>
        have hrows : rowsFor o.mac (runOps emptyDB l) = [] := by
          rw [ih, hms]
          rfl
        rw [(rowsFor_upsert_none (runOps emptyDB l) o.mac o.device o.interface o.now hrows).1]
        simp [macStep]
      | some r =>
        have hrows : rowsFor o.mac (runOps emptyDB l) = [r] := by
          rw [ih, hms]
          rfl
        by_cases hsame : r.device = o.device ∧ r.interface = o.interface
        · rw [(rowsFor_upsert_same (runOps emptyDB l) o.mac o.device o.interface o.now
              r hrows hsame.1 hsame.2).1]
          simp [macStep, hsame.1, hsame.2]
        · rw [(rowsFor_upsert_moved (runOps emptyDB l) o.mac o.device o.interface o.now
              r hrows hsame).1]
          simp [macStep]
    · rw [rowsFor_upsert_other (runOps emptyDB l) m o.mac o.device o.interface o.now
          (fun hc => hmac hc.symm)]
      have hb' : ¬ ((o.mac == m) = true) := by
        rw [beq_iff_eq]
        exact hmac
      simp only [macStep, if_neg hb']
      exact ih

theorem head_now_le_getLast_now (l : List Op)
    (hp : List.Pairwise (fun a b => a.now ≤ b.now) l)
    (o0 ok : Op) (h0 : l.head? = some o0) (h1 : l.getLast? = some ok) :
    o0.now ≤ ok.now := by
  cases l with
  | nil => cases h0
  | cons a rest =>
    have ha : o0 = a := by
      rw [List.head?_cons] at h0
      exact (Option.some_inj.mp h0).symm
    subst ha
    cases rest with
    | nil =>
      have : ok = o0 := by
        rw [List.getLast?_singleton] at h1
        exact (Option.some_inj.mp h1).symm
      rw [this]
    | cons b rest2 =>
      have hmem : ok ∈ b :: rest2 := by
        apply List.mem_of_mem_getLast?
        rw [List.getLast?_cons_cons] at h1
        rw [h1]
        rfl
      exact (List.pairwise_cons.mp hp).1 ok hmem

theorem ident_run (mac dev itf : String) (t0 : Nat) (ts : List Nat) :
    (runOps emptyDB ((t0 :: ts).map (fun t => (⟨mac, dev, itf, t⟩ : Op)))).mac_movements = [] ∧
    rowsFor mac (runOps emptyDB ((t0 :: ts).map (fun t => (⟨mac, dev, itf, t⟩ : Op))))
      = [⟨mac, dev, itf, t0, ts.getLastD t0⟩] := by
  induction ts using List.reverseRecOn with
  | nil =>
    constructor
    · simp [runOps, upsert_mac, emptyDB]
    · simp [runOps, upsert_mac, emptyDB, rowsFor]
  | append_singleton ts t ih =>
    have hmap : (t0 :: (ts ++ [t])).map (fun t => (⟨mac, dev, itf, t⟩ : Op))
        = ((t0 :: ts).map (fun t => (⟨mac, dev, itf, t⟩ : Op))) ++ [⟨mac, dev, itf, t⟩] := by
      simp
    rw [hmap, runOps_append]
    obtain ⟨hmov, hrows⟩ := ih
    have hsame := rowsFor_upsert_same
      (runOps emptyDB ((t0 :: ts).map (fun t => (⟨mac, dev, itf, t⟩ : Op))))
      mac dev itf t ⟨mac, dev, itf, t0, ts.getLastD t0⟩ hrows rfl rfl
    constructor
    · rw [hsame.2, hmov]
    · rw [hsame.1, List.getLastD_concat]

theorem all_le_getLastD (t0 : Nat) (ts : List Nat)
    (hp : List.Pairwise (· ≤ ·) (t0 :: ts)) :
    ∀ t ∈ t0 :: ts, t ≤ ts.getLastD t0 := by
  induction ts generalizing t0 with
  | nil =>
    intro t ht
    rw [List.mem_singleton] at ht
    rw [ht]
    exact Nat.le_refl _
  | cons t1 ts' ih =>
    have hp1 := List.pairwise_cons.mp hp
    intro t ht
    rw [List.getLastD_cons]
    rcases List.mem_cons.mp ht with h | h
    · have hlast : ts'.getLastD t1 ∈ t1 :: ts' := List.getLastD_mem_cons _ _
      rw [h]
      exact hp1.1 _ hlast
    · exact ih t1 hp1.2 t h

/-- Sample MAC in the canonical textual form the correlator produces. -/
def macA : String := "aa:bb:cc:dd:ee:01"

/-- A second sample MAC. -/
def macB : String := "aa:bb:cc:dd:ee:02"

/-- Sample device names and interface names for concrete instances. -/
def devA : String := "switch1"

def devB : String := "switch2"

def ifA : String := "Gi0/1"

def ifB : String := "Gi0/2"

/-- A database holding one location row for `macA` on (devA, ifA). -/
def stA : DBState := ⟨[⟨macA, devA, ifA, 1, 1⟩], []⟩

/-- Two upserts on `macA`: first on (devA, ifA), then on (devB, ifB). -/
def opsW : List Op := [⟨macA, devA, ifA, 1⟩, ⟨macA, devB, ifB, 2⟩]

/-- C1: one `upsert_mac` call follows the spec's three-way case split:
mac unknown → insert a row with firstSeen = lastSeen = observedAt and no
movement row; known with unchanged (device, interface) → only lastSeen
is rewritten and no movement row; known with a differing pair → exactly
one movement row from the prior (device, interface) to the observed pair
at observedAt is appended, and the location row's device, interface and
lastSeen are overwritten.  Rows of other macs are untouched in every
case. -/
theorem upsert_cases (st : DBState) (mac dev itf : String) (now : Nat) :
    (rowsFor mac st = [] →
      rowsFor mac (upsert_mac st mac dev itf now) = [⟨mac, dev, itf, now, now⟩] ∧
      (∀ m', m' ≠ mac → rowsFor m' (upsert_mac st mac dev itf now) = rowsFor m' st) ∧
      (upsert_mac st mac dev itf now).mac_movements = st.mac_movements) ∧
    (∀ r, rowsFor mac st = [r] → r.device = dev → r.interface = itf →
      rowsFor mac (upsert_mac st mac dev itf now) = [{ r with last_seen := now }] ∧
      (∀ m', m' ≠ mac → rowsFor m' (upsert_mac st mac dev itf now) = rowsFor m' st) ∧
      (upsert_mac st mac dev itf now).mac_movements = st.mac_movements) ∧
    (∀ r, rowsFor mac st = [r] → ¬ (r.device = dev ∧ r.interface = itf) →
      rowsFor mac (upsert_mac st mac dev itf now)
        = [{ r with device := dev, interface := itf, last_seen := now }] ∧
      (∀ m', m' ≠ mac → rowsFor m' (upsert_mac st mac dev itf now) = rowsFor m' st) ∧
      (upsert_mac st mac dev itf now).mac_movements
        = st.mac_movements ++ [⟨mac, r.device, r.interface, dev, itf, now⟩]) := by
  refine ⟨fun h => ⟨(rowsFor_upsert_none st mac dev itf now h).1,
      fun m' hm' => rowsFor_upsert_other st m' mac dev itf now hm',
      (rowsFor_upsert_none st mac dev itf now h).2⟩,
    fun r h hdev hitf => ⟨(rowsFor_upsert_same st mac dev itf now r h hdev hitf).1,
      fun m' hm' => rowsFor_upsert_other st m' mac dev itf now hm',
      (rowsFor_upsert_same st mac dev itf now r h hdev hitf).2⟩,
    fun r h hdiff => ⟨(rowsFor_upsert_moved st mac dev itf now r h hdiff).1,
      fun m' hm' => rowsFor_upsert_other st m' mac dev itf now hm',
      (rowsFor_upsert_moved st mac dev itf now r h hdiff).2⟩⟩

/-- Witness for C1: the three branches evaluated at concrete inputs. -/
theorem upsert_cases_witness :
    rowsFor macA (upsert_mac emptyDB macA devA ifA 1) = [⟨macA, devA, ifA, 1, 1⟩] ∧
    rowsFor macA (upsert_mac stA macA devA ifA 2) = [⟨macA, devA, ifA, 1, 2⟩] ∧
    (upsert_mac stA macA devB ifB 3).mac_movements = [⟨macA, devA, ifA, devB, ifB, 3⟩] :=
  ⟨((upsert_cases emptyDB macA devA ifA 1).1 (by decide)).1,
   ((upsert_cases stA macA devA ifA 2).2.1 ⟨macA, devA, ifA, 1, 1⟩ (by decide) rfl rfl).1,
   ((upsert_cases stA macA devB ifB 3).2.2 ⟨macA, devA, ifA, 1, 1⟩ (by decide) (by decide)).2.2⟩

/-- C2: an upsert appends a movement row iff a location row for the mac
already exists whose (device, interface) differs from the observed pair;
exactly one row is appended in that case; and the first upsert ever
performed for a mac in a run appends nothing. -/
theorem movement_iff (st : DBState) (mac dev itf : String) (now : Nat)
    (hu : (rowsFor mac st).length ≤ 1) :
    (((upsert_mac st mac dev itf now).mac_movements ≠ st.mac_movements) ↔
      (∃ r, rowsFor mac st = [r] ∧ ¬ (r.device = dev ∧ r.interface = itf))) ∧
    (∀ r, rowsFor mac st = [r] → ¬ (r.device = dev ∧ r.interface = itf) →
      (upsert_mac st mac dev itf now).mac_movements
        = st.mac_movements ++ [⟨mac, r.device, r.interface, dev, itf, now⟩]) ∧
    (∀ ops, st = runOps emptyDB ops → opsFor mac ops = [] →
      (upsert_mac st mac dev itf now).mac_movements = st.mac_movements) := by
  refine ⟨?_, fun r h hdiff => (rowsFor_upsert_moved st mac dev itf now r h hdiff).2, ?_⟩
  · cases hrows : rowsFor mac st with
    | nil =>
      rw [(rowsFor_upsert_none st mac dev itf now hrows).2]
      constructor
      · intro hne
        exact absurd rfl hne
      · rintro ⟨r, hr, hdiff⟩
        exact List.noConfusion hr
    | cons r rest =>
      have hrest : rest = [] := by
        rw [hrows] at hu
        simpa using List.length_eq_zero.mp (Nat.le_zero.mp (Nat.le_of_succ_le_succ hu))
      subst hrest
      by_cases hsame : r.device = dev ∧ r.interface = itf
      · rw [(rowsFor_upsert_same st mac dev itf now r hrows hsame.1 hsame.2).2]
        constructor
        · intro hne
          exact absurd rfl hne
        · rintro ⟨r', hr', hdiff⟩
          injection hr' with h1 h2
          rw [← h1] at hdiff
          exact absurd hsame hdiff
      · rw [(rowsFor_upsert_moved st mac dev itf now r hrows hsame).2]
        constructor
        · intro _
          exact ⟨r, rfl, hsame⟩
        · intro _
          intro hc
          have := congrArg List.length hc
          simp at this
  · intro ops hst hops
    have hrows : rowsFor mac st = [] := by
      rw [hst, rowsFor_runOps, macState_of_opsFor_nil mac ops hops]
      rfl
    exact (rowsFor_upsert_none st mac dev itf now hrows).2

/-- Witness for C2 at concrete inputs: a same-pair upsert appends no
movement row, a moved upsert appends exactly one. -/
theorem movement_iff_witness :
    ((upsert_mac stA macA devB ifB 3).mac_movements ≠ stA.mac_movements ↔
      (∃ r, rowsFor macA stA = [r] ∧ ¬ (r.device = devB ∧ r.interface = ifB))) ∧
    (upsert_mac (runOps emptyDB []) macB devA ifA 1).mac_movements
      = (runOps emptyDB []).mac_movements :=
  ⟨(movement_iff stA macA devB ifB 3 (by decide)).1,
   (movement_iff (runOps emptyDB []) macB devA ifA 1 (by decide)).2.2 [] rfl rfl⟩

/-- C4: after any run from the empty database whose observation
timestamps for mac `m` are non-decreasing, there is exactly one
`mac_addresses` row for `m`; its lastSeen is at least its firstSeen, and
its device, interface and lastSeen are those of the most recent upsert
for `m`. -/
theorem location_invariant (ops : List Op) (m : String)
    (hmem : ∃ o ∈ ops, o.mac = m)
    (hmono : List.Pairwise (fun a b => a.now ≤ b.now) (opsFor m ops)) :
    ∃ r, rowsFor m (runOps emptyDB ops) = [r] ∧
      r.mac = m ∧ r.first_seen ≤ r.last_seen ∧
      ∃ o, (opsFor m ops).getLast? = some o ∧
        r.device = o.device ∧ r.interface = o.interface ∧ r.last_seen = o.now := by
  have hne : opsFor m ops ≠ [] := by
    obtain ⟨o, ho, hom⟩ := hmem
    intro hnil
    have hmemf : o ∈ opsFor m ops := by
      rw [opsFor, List.mem_filter]
      exact ⟨ho, by rw [beq_iff_eq]; exact hom⟩
    rw [hnil] at hmemf
    cases hmemf
  obtain ⟨o0, ok, h0, h1, hms⟩ := macState_spec m ops hne
  refine ⟨⟨m, ok.device, ok.interface, o0.now, ok.now⟩, ?_, rfl, ?_, ok, h1, rfl, rfl, rfl⟩
  · rw [rowsFor_runOps, hms]
    rfl
  · exact head_now_le_getLast_now _ hmono o0 ok h0 h1

/-- Witness for C4: the invariant evaluated on a concrete two-step run. -/
theorem location_invariant_witness :
    ∃ r, rowsFor macA (runOps emptyDB opsW) = [r] ∧
      r.mac = macA ∧ r.first_seen ≤ r.last_seen ∧
      ∃ o, (opsFor macA opsW).getLast? = some o ∧
        r.device = o.device ∧ r.interface = o.interface ∧ r.last_seen = o.now :=
  location_invariant opsW macA ⟨⟨macA, devA, ifA, 1⟩, by decide, rfl⟩ (by decide)

/-- C5: repeated upserts carrying identical (mac, device, interface) and
non-decreasing observedAt values: no movement row exists after any
prefix of the run, and the single location row keeps its mac, device,
interface and firstSeen while lastSeen ends at the latest observedAt. -/
theorem idempotent_repeats (mac dev itf : String) (t0 : Nat) (ts : List Nat)
    (hmono : List.Pairwise (· ≤ ·) (t0 :: ts)) :
    (∀ k, (runOps emptyDB
        (((t0 :: ts).map (fun t => (⟨mac, dev, itf, t⟩ : Op))).take k)).mac_movements = []) ∧
    rowsFor mac (runOps emptyDB ((t0 :: ts).map (fun t => (⟨mac, dev, itf, t⟩ : Op))))
      = [⟨mac, dev, itf, t0, ts.getLastD t0⟩] ∧
    (∀ t ∈ t0 :: ts, t ≤ ts.getLastD t0) := by
  refine ⟨?_, (ident_run mac dev itf t0 ts).2, all_le_getLastD t0 ts hmono⟩
  intro k
  rw [← List.map_take]
  cases k with
  | zero => rfl
  | succ k =>
    rw [List.take_succ_cons]
    exact (ident_run mac dev itf t0 (ts.take k)).1

/-- Witness for C5 on a concrete three-step run. -/
theorem idempotent_repeats_witness :
    (runOps emptyDB (([4, 5, 6].map (fun t => (⟨macA, devA, ifA, t⟩ : Op))).take 3)).mac_movements
      = [] ∧
    rowsFor macA (runOps emptyDB ([4, 5, 6].map (fun t => (⟨macA, devA, ifA, t⟩ : Op))))
      = [⟨macA, devA, ifA, 4, [5, 6].getLastD 4⟩] :=
  ⟨(idempotent_repeats macA devA ifA 4 [5, 6] (by decide)).1 3,
   (idempotent_repeats macA devA ifA 4 [5, 6] (by decide)).2.1⟩

/-- C10: frame conditions of the tracker's writes: when a location row
for the mac exists, an upsert preserves the row count and every row's
mac key and firstSeen (only device, interface and lastSeen may change);
and across any sequence of upserts the movement table only grows by
appending, so existing movement rows are never updated or deleted. -/
theorem upsert_frame :
    (∀ (st : DBState) (mac dev itf : String) (now : Nat),
      (∃ r ∈ st.mac_addresses, r.mac = mac) →
      (upsert_mac st mac dev itf now).mac_addresses.length = st.mac_addresses.length ∧
      ∀ (i : Nat), ((upsert_mac st mac dev itf now).mac_addresses[i]?).map MacRow.mac
              = (st.mac_addresses[i]?).map MacRow.mac ∧
           ((upsert_mac st mac dev itf now).mac_addresses[i]?).map MacRow.first_seen
              = (st.mac_addresses[i]?).map MacRow.first_seen) ∧
    (∀ (st : DBState) (ops : List Op),
      ∃ tl, (runOps st ops).mac_movements = st.mac_movements ++ tl) := by
  refine ⟨?_, movements_runOps⟩
  intro st mac dev itf now hex
  have hfind : st.mac_addresses.find? (fun r => r.mac == mac) ≠ none := by
    intro hnone
    rw [List.find?_eq_none] at hnone
    obtain ⟨r, hr, hrm⟩ := hex
    exact hnone r hr (by rw [beq_iff_eq]; exact hrm)
  cases hf : st.mac_addresses.find? (fun r => r.mac == mac) with
  | none => exact absurd hf hfind
  | some row =>
    have key : ∀ (u : MacRow → MacRow), (∀ x, (u x).mac = x.mac) →
        (∀ x, (u x).first_seen = x.first_seen) →
        (st.mac_addresses.map (fun r => if r.mac == mac then u r else r)).length
            = st.mac_addresses.length ∧
        ∀ (i : Nat), ((st.mac_addresses.map
                (fun r => if r.mac == mac then u r else r))[i]?).map MacRow.mac
                = (st.mac_addresses[i]?).map MacRow.mac ∧
             ((st.mac_addresses.map
                (fun r => if r.mac == mac then u r else r))[i]?).map MacRow.first_seen
                = (st.mac_addresses[i]?).map MacRow.first_seen := by
      intro u hmac hfs
      refine ⟨List.length_map _ _, ?_⟩
      intro i
      rw [List.getElem?_map]
      cases st.mac_addresses[i]? with
      | none => exact ⟨rfl, rfl⟩
      | some r =>
        constructor
        · show some (if (r.mac == mac) = true then u r else r).mac = some r.mac
          by_cases hcase : (r.mac == mac) = true
          · rw [if_pos hcase, hmac]
          · rw [if_neg hcase]
        · show some (if (r.mac == mac) = true then u r else r).first_seen = some r.first_seen
          by_cases hcase : (r.mac == mac) = true
          · rw [if_pos hcase, hfs]
          · rw [if_neg hcase]
    by_cases hsame : row.device = dev ∧ row.interface = itf
    · simp only [upsert_mac, hf, if_pos hsame]
      exact key (fun x => { x with last_seen := now }) (fun x => rfl) (fun x => rfl)
    · simp only [upsert_mac, hf, if_neg hsame]
      exact key (fun x => { x with device := dev, interface := itf, last_seen := now })
        (fun x => rfl) (fun x => rfl)

/-- Witness for C10: frame conditions evaluated on a concrete moved
upsert and a concrete run. -/
theorem upsert_frame_witness :
    (upsert_mac stA macA devB ifB 3).mac_addresses.length = stA.mac_addresses.length ∧
    ((upsert_mac stA macA devB ifB 3).mac_addresses[(0 : Nat)]?).map MacRow.first_seen
      = (stA.mac_addresses[(0 : Nat)]?).map MacRow.first_seen ∧
    ∃ tl, (runOps stA opsW).mac_movements = stA.mac_movements ++ tl :=
  ⟨(upsert_frame.1 stA macA devB ifB 3 ⟨⟨macA, devA, ifA, 1, 1⟩, by decide, rfl⟩).1,
   ((upsert_frame.1 stA macA devB ifB 3 ⟨⟨macA, devA, ifA, 1, 1⟩, by decide, rfl⟩).2 0).2,
   upsert_frame.2 stA opsW⟩

end MacTracker

namespace MacTracker

/-- One variable binding yielded by an SNMP walk, in the textual form
`prettyPrint()` gives the code: the full OID and the value. -/
structure VarBind where
  oid : String
  val : String
deriving DecidableEq

/-- The OID component separator character. -/
def dotChar : Char := '.'

/-- Python `s.split('.')` over the character list (structural recursion,
so that concrete walks evaluate in the kernel): split at every dot,
keeping empty pieces, as `str.split` with an explicit separator does. -/
def splitDots : List Char → List (List Char)
  | [] => [[]]
  | c :: rest =>
    let r := splitDots rest
    if c = dotChar then [] :: r
    else
      match r with
      | [] => [[c]]
      | h :: t => (c :: h) :: t

/-- `s.split('.')` on a string. -/
def pySplitDots (s : String) : List String := (splitDots s.data).map List.asString

/-- The separator of MAC octets in the canonical textual form. -/
def colonSep : String := ":"

/-- The empty string (default for a total `getLastD`; `split` never
returns an empty list, so it is never used). -/
def emptyStr : String := ""

/-- The zero character used for `%02x` left padding. -/
def zeroPad : String := "0"

/-- A decimal digit character. -/
def isDigitChar (c : Char) : Bool := 48 ≤ c.toNat && c.toNat ≤ 57

/-- Python `int(s)` as the code applies it to OID components and SNMP
integer values: a string of decimal digits parses, anything else raises
`ValueError`, modelled as `none`. -/
def pyInt (s : String) : Option Nat :=
  if s.data ≠ [] ∧ s.data.all isDigitChar then
    some (s.data.foldl (fun n c => n * 10 + (c.toNat - 48)) 0)
  else none

/-- `s.split('.')[-1]`: the final OID index component. -/
def lastComponent (s : String) : String := (pySplitDots s).getLastD emptyStr

/-- `lst[-6:]`: the trailing six components (all of them when fewer). -/
def lastSix (xs : List String) : List String := xs.drop (xs.length - 6)

/-- Python `f"{n:02x}"` for a natural: lowercase hex, left-padded with
zeros to width two (wider when the value needs more digits — the code
never checks the 0–255 range). -/
def hex02 (n : Nat) : String :=
  let s := (Nat.toDigits 16 n).asString
  if s.length < 2 then zeroPad ++ s else s

/-- Python dict assignment `d[k] = v`: replace the binding in place when
the key is present, append otherwise (insertion order preserved). -/
def alUpdate {α β : Type} [BEq α] (k : α) (v : β) : List (α × β) → List (α × β)
  | [] => [(k, v)]
  | (k', v') :: rest => if k' == k then (k, v) :: rest else (k', v') :: alUpdate k v rest

/-- Python dict lookup: `d[k]`, `k in d`, `d.get(k)`. -/
def alFind? {α β : Type} [BEq α] (k : α) : List (α × β) → Option β
  | [] => none
  | (k', v') :: rest => if k' == k then some v' else alFind? k rest

/-- The first loop of `get_mac_table` (lines 93-95): build the
bridge-port → ifIndex map, keyed by the final OID component, valued by
the binding's integer value; a parse failure raises out of the whole
function. -/
def buildPortMap (walk : List VarBind) : Option (List (Nat × Nat)) :=
  walk.foldlM (fun pm vb => do
    let bp ← pyInt (lastComponent vb.oid)
    let ifx ← pyInt vb.val
    pure (alUpdate bp ifx pm)) []

/-- The second loop (lines 97-99): the ifIndex → interface-name map. -/
def buildIfMap (walk : List VarBind) : Option (List (Nat × String)) :=
  walk.foldlM (fun im vb => do
    let ifx ← pyInt (lastComponent vb.oid)
    pure (alUpdate ifx vb.val im)) []

/-- Lines 102-105: the bridge port from the entry's value and the MAC
string from the trailing six OID components, each parsed with `int` and
rendered `%02x`, joined with colons.  Any parse failure raises. -/
def decodeMacEntry (vb : VarBind) : Option (String × Nat) := do
  let bp ← pyInt vb.val
  let octets ← (lastSix (pySplitDots vb.oid)).mapM pyInt
  pure (String.intercalate colonSep (octets.map hex02), bp)

/-- The synthetic interface name `f"ifIndex-{ifindex}"`. -/
def synthName (ifindex : Nat) : String := "ifIndex-" ++ Nat.repr ifindex

/-- Lines 107-110: resolve one decoded (mac, bridge_port) entry through
the two maps and record it; a bridge port absent from the port map
leaves the table unchanged (the entry is skipped). -/
def macEntryStep (port_map : List (Nat × Nat)) (ifindex_map : List (Nat × String))
    (mac_table : List (String × String)) (mac : String) (bridge_port : Nat) :
    List (String × String) :=
  match alFind? bridge_port port_map with
  | some ifindex =>
    alUpdate mac ((alFind? ifindex ifindex_map).getD (synthName ifindex)) mac_table
  | none => mac_table

/-- `get_mac_table(ip)` (lines 88-112) as a function of the three raw
walks the function performs; `none` models the ValueError a malformed
component raises out of the function (there is no per-entry handler in
the source). -/
def get_mac_table (portWalk ifWalk macWalk : List VarBind) :
    Option (List (String × String)) := do
  let port_map ← buildPortMap portWalk
  let ifindex_map ← buildIfMap ifWalk
  macWalk.foldlM (fun tbl vb => do
    let e ← decodeMacEntry vb
    pure (macEntryStep port_map ifindex_map tbl e.1 e.2)) []

end MacTracker

namespace MacTracker

/-- One iteration of the pysnmp `nextCmd` generator as `snmp_walk`
(lines 66-86) consumes it: a normal batch of bindings, a transport-level
error indication, a protocol-level error status, or an exception raised
while iterating. -/
inductive SnmpStep
  | ok (varBinds : List VarBind)
  | errorIndication (msg : String)
  | errorStatus (msg : String)
  | exn (msg : String)
deriving DecidableEq

/-- Log levels of the events the walk emits. -/
inductive LogLevel
  | info
  | warning
  | error
deriving DecidableEq

/-- `snmp_walk` (lines 66-86): yields the bindings of normal iterations;
the first error indication or error status logs a warning and breaks,
an exception is caught and logs at error level; either way the walk
returns normally with the entries already yielded. -/
def snmp_walk : List SnmpStep → List VarBind × List (LogLevel × String)
  | [] => ([], [])
  | SnmpStep.ok vbs :: rest =>
    let r := snmp_walk rest
    (vbs ++ r.1, r.2)
  | SnmpStep.errorIndication msg :: _ => ([], [(LogLevel.warning, msg)])
  | SnmpStep.errorStatus msg :: _ => ([], [(LogLevel.warning, msg)])
  | SnmpStep.exn msg :: _ => ([], [(LogLevel.error, msg)])

/-- The upsert loop of `process_device` (lines 172-173) under a storage
failure oracle: `failsAt mac = true` models the storage layer raising on
that MAC's upsert; the raise leaves the state as is and aborts the loop,
because the `try` of `process_device` wraps the whole loop. -/
def upsertLoop (failsAt : String → Bool) (st : DBState) (device : String)
    (now : Nat) : List (String × String) → DBState
  | [] => st
  | (mac, itf) :: rest =>
    if failsAt mac then st
    else upsertLoop failsAt (upsert_mac st mac device itf now) device now rest

/-- `process_device` (lines 167-175): correlate the three walks, then
upsert every (mac, interface) pair with one shared timestamp; any
exception — a decode failure inside `get_mac_table` or a storage
failure of one upsert — is caught here, keeping the database changes
already made and skipping the rest of this device's work. -/
def process_device (failsAt : String → Bool) (st : DBState) (device : String)
    (portWalk ifWalk macWalk : List VarBind) (now : Nat) : DBState :=
  match get_mac_table portWalk ifWalk macWalk with
  | none => st
  | some tbl => upsertLoop failsAt st device now tbl

/-- A device together with the three walks its poll returns. -/
structure Device where
  name : String
  portWalk : List VarBind
  ifWalk : List VarBind
  macWalk : List VarBind

/-- The device loop of `main` (lines 184-188): devices are processed in
sequence, each one's failures contained inside `process_device`. -/
def runDevices (failsAt : String → Bool) (st : DBState) (now : Nat) :
    List Device → DBState
  | [] => st
  | d :: rest =>
    runDevices failsAt
      (process_device failsAt st d.name d.portWalk d.ifWalk d.macWalk now) now rest

/-- The effect of upserting a table of (mac, interface) pairs when no
storage failure occurs. -/
def applyUpserts (st : DBState) (device : String) (now : Nat)
    (tbl : List (String × String)) : DBState :=
  tbl.foldl (fun s p => upsert_mac s p.1 device p.2 now) st

/-- The bridge-port walk of the spec's synthetic example: ports 1 and 2
mapping to ifIndexes 10 and 20. -/
def exPortWalk : List VarBind :=
  [⟨"1.3.6.1.2.1.17.1.4.1.2.1", "10"⟩, ⟨"1.3.6.1.2.1.17.1.4.1.2.2", "20"⟩]

/-- The interface-name walk of the example: 10 → Gi0/1, 20 → Gi0/2. -/
def exIfWalk : List VarBind :=
  [⟨"1.3.6.1.2.1.31.1.1.1.1.10", "Gi0/1"⟩, ⟨"1.3.6.1.2.1.31.1.1.1.1.20", "Gi0/2"⟩]

/-- The MAC-table walk of the example: aa:bb:cc:dd:ee:01 on port 1 and
aa:bb:cc:dd:ee:02 on port 2. -/
def exMacWalk : List VarBind :=
  [⟨"1.3.6.1.2.1.17.4.3.1.2.170.187.204.221.238.1", "1"⟩,
   ⟨"1.3.6.1.2.1.17.4.3.1.2.170.187.204.221.238.2", "2"⟩]

end MacTracker

namespace MacTracker

/-- A MAC-table entry whose final OID component is not numeric, so its
decode raises ValueError in the source. -/
def badEntry : VarBind := ⟨"1.3.6.1.2.1.17.4.3.1.2.170.187.204.221.238.xx", "1"⟩

/-- A well-formed MAC-table entry: aa:bb:cc:dd:ee:02 on bridge port 2. -/
def goodEntry : VarBind := ⟨"1.3.6.1.2.1.17.4.3.1.2.170.187.204.221.238.2", "2"⟩

/-- A MAC-table walk whose first entry is malformed and whose second is
fine. -/
def badMacWalk : List VarBind := [badEntry, goodEntry]

/-- A storage layer that never fails. -/
def failsNone : String → Bool := fun _ => false

/-- A storage layer that fails exactly on `macB`. -/
def failsB : String → Bool := fun m => m == macB

/-- Third MAC of the larger example: aa:bb:cc:dd:ee:03. -/
def macC : String := "aa:bb:cc:dd:ee:03"

/-- The synthetic name the correlator fabricates for ifIndex 30. -/
def ifIdx30 : String := "ifIndex-30"

/-- Port walk with a third bridge port 3 → ifIndex 30 (which has no
name in `exIfWalk`). -/
def exPortWalk3 : List VarBind :=
  exPortWalk ++ [⟨"1.3.6.1.2.1.17.1.4.1.2.3", "30"⟩]

/-- MAC walk with a third entry aa:bb:cc:dd:ee:03 on bridge port 3. -/
def exMacWalk3 : List VarBind :=
  exMacWalk ++ [⟨"1.3.6.1.2.1.17.4.3.1.2.170.187.204.221.238.3", "3"⟩]

/-- C3: the mac-table loop resolves each decoded (mac, bridgePortId)
through the bridge-port map to an ifIndex and then through the
interface-name map, falling back to the synthetic `ifIndex-<n>` name
when the ifIndex has no name, and emits nothing when the bridge port is
absent from the bridge-port map; on the spec's synthetic tables the
correlation yields exactly the two expected entries. -/
theorem correlate_resolution :
    (∀ (pm : List (Nat × Nat)) (im : List (Nat × String)) (tbl : List (String × String))
        (mac : String) (bp ifx : Nat),
      alFind? bp pm = some ifx →
        macEntryStep pm im tbl mac bp
          = alUpdate mac ((alFind? ifx im).getD (synthName ifx)) tbl) ∧
    (∀ (pm : List (Nat × Nat)) (im : List (Nat × String)) (tbl : List (String × String))
        (mac : String) (bp : Nat),
      alFind? bp pm = none → macEntryStep pm im tbl mac bp = tbl) ∧
    get_mac_table exPortWalk exIfWalk exMacWalk = some [(macA, ifA), (macB, ifB)] := by
  refine ⟨?_, ?_, by decide⟩
  · intro pm im tbl mac bp ifx h
    simp [macEntryStep, h]
  · intro pm im tbl mac bp h
    simp [macEntryStep, h]

set_option maxRecDepth 10000 in
/-- Witness for C3: the two resolution branches applied at concrete
maps — a resolved bridge port and a dangling one. -/
theorem correlate_resolution_witness :
    macEntryStep [(1, 10)] [(10, ifA)] [] macA 1
      = alUpdate macA ((alFind? 10 [(10, ifA)]).getD (synthName 10)) [] ∧
    macEntryStep [(1, 10)] [(10, ifA)] [] macA 7 = [] :=
  ⟨correlate_resolution.1 [(1, 10)] [(10, ifA)] [] macA 1 10 (by decide),
   correlate_resolution.2.1 [(1, 10)] [(10, ifA)] [] macA 7 (by decide)⟩

/-- C8: a transport error indication or a protocol error status after
some yielded entries stops the walk early, keeps every entry already
yielded regardless of what follows, and logs exactly one warning-level
event; an exception inside the iteration is likewise caught with an
error-level log, so nothing escapes the walk into the caller. -/
theorem snmp_walk_partial (pres : List (List VarBind)) (msg : String) (post : List SnmpStep) :
    snmp_walk (pres.map SnmpStep.ok ++ SnmpStep.errorIndication msg :: post)
      = (pres.flatten, [(LogLevel.warning, msg)]) ∧
    snmp_walk (pres.map SnmpStep.ok ++ SnmpStep.errorStatus msg :: post)
      = (pres.flatten, [(LogLevel.warning, msg)]) ∧
    snmp_walk (pres.map SnmpStep.ok ++ SnmpStep.exn msg :: post)
      = (pres.flatten, [(LogLevel.error, msg)]) := by
  induction pres with
  | nil => exact ⟨rfl, rfl, rfl⟩
  | cons vbs pres ih =>
    refine ⟨?_, ?_, ?_⟩
    · simp only [List.map_cons, List.cons_append, snmp_walk, List.append_eq, ih.1,
        List.flatten_cons]
    · simp only [List.map_cons, List.cons_append, snmp_walk, List.append_eq, ih.2.1,
        List.flatten_cons]
    · simp only [List.map_cons, List.cons_append, snmp_walk, List.append_eq, ih.2.2,
        List.flatten_cons]

theorem macLoop_decode_none (pm : List (Nat × Nat)) (im : List (Nat × String))
    (macWalk : List VarBind) :
    (∃ vb ∈ macWalk, decodeMacEntry vb = none) →
    ∀ acc, macWalk.foldlM (fun tbl vb => do
        let e ← decodeMacEntry vb
        pure (macEntryStep pm im tbl e.1 e.2)) acc = none := by
  induction macWalk with
  | nil =>
    rintro ⟨vb, hvb, _⟩
    cases hvb
  | cons v rest ih =>
    rintro ⟨vb, hvb, hn⟩ acc
    cases hd : decodeMacEntry v with
    | none => simp [List.foldlM_cons, hd]
    | some e =>
      have hrest : ∃ vb ∈ rest, decodeMacEntry vb = none := by
        rcases List.mem_cons.mp hvb with h | h
        · subst h
          rw [hd] at hn
          cases hn
        · exact ⟨vb, h, hn⟩
      simp only [List.foldlM_cons, hd]
      exact ih hrest _

theorem get_mac_table_decode_none (portWalk ifWalk macWalk : List VarBind)
    (hbad : ∃ vb ∈ macWalk, decodeMacEntry vb = none) :
    get_mac_table portWalk ifWalk macWalk = none := by
  unfold get_mac_table
  cases hpm : buildPortMap portWalk with
  | none => rfl
  | some pm =>
    cases him : buildIfMap ifWalk with
    | none => rfl
    | some im => exact macLoop_decode_none pm im macWalk hbad []

/-- Counterexample to C6: the first MAC-table entry is malformed and the
second is well-formed (it correlates fine on its own), yet the combined
walk does not skip just the bad entry: the whole correlation raises and
`process_device` upserts nothing for the device. -/
theorem decode_skip_counterexample :
    decodeMacEntry badEntry = none ∧
    get_mac_table exPortWalk exIfWalk [goodEntry] = some [(macB, ifB)] ∧
    get_mac_table exPortWalk exIfWalk badMacWalk = none ∧
    process_device failsNone emptyDB devA exPortWalk exIfWalk badMacWalk 5 = emptyDB :=
  ⟨by decide, by decide, by decide, by decide⟩

set_option maxRecDepth 10000 in
/-- C6 amended: an entry whose trailing OID components or value fail to
decode raises out of `get_mac_table`, so none of the walk's entries —
including the well-formed ones — are correlated or upserted for that
device this cycle; the exception is caught per device in
`process_device`, which leaves the database untouched, so other devices
are unaffected. -/
theorem decode_failure_aborts (portWalk ifWalk : List VarBind)
    (pre post : List VarBind) (vb : VarBind) (hbad : decodeMacEntry vb = none) :
    get_mac_table portWalk ifWalk (pre ++ vb :: post) = none ∧
    (∀ (failsAt : String → Bool) (st : DBState) (dev : String) (now : Nat),
      process_device failsAt st dev portWalk ifWalk (pre ++ vb :: post) now = st) := by
  have h1 : get_mac_table portWalk ifWalk (pre ++ vb :: post) = none :=
    get_mac_table_decode_none portWalk ifWalk _ ⟨vb, by simp, hbad⟩
  refine ⟨h1, ?_⟩
  intro failsAt st dev now
  simp [process_device, h1]

/-- Witness for the amended C6 at a concrete walk. -/
theorem decode_failure_aborts_witness :
    get_mac_table exPortWalk exIfWalk ([] ++ badEntry :: [goodEntry]) = none ∧
    process_device failsNone stA devA exPortWalk exIfWalk ([] ++ badEntry :: [goodEntry]) 5
      = stA :=
  ⟨(decode_failure_aborts exPortWalk exIfWalk [] [goodEntry] badEntry (by decide)).1,
   (decode_failure_aborts exPortWalk exIfWalk [] [goodEntry] badEntry (by decide)).2
     failsNone stA devA 5⟩

set_option maxRecDepth 10000 in
/-- Counterexample to C7: storage fails on macB only; macC is a later
MAC of the same device whose own upsert would succeed, yet after the
poll macC has no location row — the device's upsert loop aborted at the
failure instead of skipping only macB. -/
theorem upsert_failure_counterexample :
    get_mac_table exPortWalk3 exIfWalk exMacWalk3
      = some [(macA, ifA), (macB, ifB), (macC, ifIdx30)] ∧
    failsB macA = false ∧ failsB macB = true ∧ failsB macC = false ∧
    rowsFor macA (process_device failsB emptyDB devA exPortWalk3 exIfWalk exMacWalk3 5)
      = [⟨macA, devA, ifA, 5, 5⟩] ∧
    rowsFor macC (process_device failsB emptyDB devA exPortWalk3 exIfWalk exMacWalk3 5)
      = [] :=
  ⟨by decide, by decide, by decide, by decide, by decide, by decide⟩

theorem upsertLoop_abort (failsAt : String → Bool) (dev : String) (now : Nat) :
    ∀ (pre : List (String × String)) (st : DBState) (mac itf : String)
      (post : List (String × String)),
      (∀ p ∈ pre, failsAt p.1 = false) → failsAt mac = true →
      upsertLoop failsAt st dev now (pre ++ (mac, itf) :: post)
        = applyUpserts st dev now pre := by
  intro pre
  induction pre with
  | nil =>
    intro st mac itf post hpre hf
    simp [upsertLoop, hf, applyUpserts]
  | cons p pre' ih =>
    intro st mac itf post hpre hf
    obtain ⟨pmac, pitf⟩ := p
    have hp : failsAt pmac = false := hpre (pmac, pitf) (List.mem_cons_self _ _)
    simp only [List.cons_append, upsertLoop, hp, Bool.false_eq_true, if_false,
      applyUpserts, List.foldl_cons]
    exact ih _ mac itf post (fun q hq => hpre q (List.mem_cons_of_mem _ hq)) hf

theorem runDevices_append (failsAt : String → Bool) (now : Nat) :
    ∀ (ds1 ds2 : List Device) (st : DBState),
      runDevices failsAt st now (ds1 ++ ds2)
        = runDevices failsAt (runDevices failsAt st now ds1) now ds2 := by
  intro ds1
  induction ds1 with
  | nil =>
    intro ds2 st
    rfl
  | cons d rest ih =>
    intro ds2 st
    simp only [List.cons_append, runDevices]
    exact ih ds2 _

/-- C7 amended: a storage failure on one MAC's upsert aborts the rest of
that device's MAC loop — the upserts already performed for its earlier
MACs are retained, the failing MAC and all following MACs of the device
are skipped — while the device loop of `main` still processes every
remaining device. -/
theorem upsert_failure_isolation (failsAt : String → Bool) (st : DBState) (dev : String)
    (now : Nat) (pre : List (String × String)) (mac itf : String)
    (post : List (String × String))
    (hpre : ∀ p ∈ pre, failsAt p.1 = false) (hf : failsAt mac = true) :
    upsertLoop failsAt st dev now (pre ++ (mac, itf) :: post) = applyUpserts st dev now pre ∧
    (∀ (ds1 ds2 : List Device) (st0 : DBState),
      runDevices failsAt st0 now (ds1 ++ ds2)
        = runDevices failsAt (runDevices failsAt st0 now ds1) now ds2) :=
  ⟨upsertLoop_abort failsAt dev now pre st mac itf post hpre hf,
   fun ds1 ds2 st0 => runDevices_append failsAt now ds1 ds2 st0⟩

/-- Witness for the amended C7 at concrete inputs. -/
theorem upsert_failure_isolation_witness :
    upsertLoop failsB emptyDB devA 5 ([(macA, ifA)] ++ (macB, ifB) :: [(macC, ifIdx30)])
      = applyUpserts emptyDB devA 5 [(macA, ifA)] ∧
    runDevices failsB emptyDB 5 ([] ++ [])
      = runDevices failsB (runDevices failsB emptyDB 5 []) 5 [] :=
  ⟨(upsert_failure_isolation failsB emptyDB devA 5 [(macA, ifA)] macB ifB [(macC, ifIdx30)]
      (by decide) (by decide)).1,
   (upsert_failure_isolation failsB emptyDB devA 5 [(macA, ifA)] macB ifB [(macC, ifIdx30)]
      (by decide) (by decide)).2 [] [] emptyDB⟩

end MacTracker
